import Mathlib

/-!
Verification of the bit-ordering / tensor-ordering convention and the
circuit operations demonstrated in `qiskit_reference.py`.

The notebook builds quantum circuits from the gates H, X, Y, CX, CZ, CCX,
CCZ and barriers, and inspects the resulting operators and statevectors.
The library semantics (basis-label convention, `Statevector`,
`Operator`, `from_label`, `from_int`, `probabilities`, `reverse_bits`,
`inverse`, `to_gate`, `compose`) are modelled here from the spec, since
the library itself is an external dependency of the repository.

Amplitudes live in the 8th cyclotomic field ℚ(ζ₈), which contains the
imaginary unit i = ζ² and 1/√2 = (ζ - ζ³)/2, so every amplitude the
notebook's gate set can produce is represented exactly.
-/

/-- Elements of ℚ(ζ₈): `a + b·ζ + c·ζ² + d·ζ³` with ζ = exp(iπ/4),
so ζ² = i, ζ - ζ³ = √2, and ζ⁴ = -1. -/
@[ext]
structure K where
  a : ℚ
  b : ℚ
  c : ℚ
  d : ℚ

namespace K

instance : Zero K := ⟨⟨0, 0, 0, 0⟩⟩

instance : One K := ⟨⟨1, 0, 0, 0⟩⟩

instance : Add K := ⟨fun x y => ⟨x.a + y.a, x.b + y.b, x.c + y.c, x.d + y.d⟩⟩

instance : Neg K := ⟨fun x => ⟨-x.a, -x.b, -x.c, -x.d⟩⟩

/-- Multiplication, reducing powers of ζ with ζ⁴ = -1. -/
instance : Mul K :=
  ⟨fun x y =>
    ⟨x.a * y.a - x.b * y.d - x.c * y.c - x.d * y.b,
     x.a * y.b + x.b * y.a - x.c * y.d - x.d * y.c,
     x.a * y.c + x.b * y.b + x.c * y.a - x.d * y.d,
     x.a * y.d + x.b * y.c + x.c * y.b + x.d * y.a⟩⟩

@[simp] theorem zero_a : (0 : K).a = 0 := rfl

@[simp] theorem zero_b : (0 : K).b = 0 := rfl

@[simp] theorem zero_c : (0 : K).c = 0 := rfl

@[simp] theorem zero_d : (0 : K).d = 0 := rfl

@[simp] theorem one_a : (1 : K).a = 1 := rfl

@[simp] theorem one_b : (1 : K).b = 0 := rfl

@[simp] theorem one_c : (1 : K).c = 0 := rfl

@[simp] theorem one_d : (1 : K).d = 0 := rfl

@[simp] theorem add_a (x y : K) : (x + y).a = x.a + y.a := rfl

@[simp] theorem add_b (x y : K) : (x + y).b = x.b + y.b := rfl

@[simp] theorem add_c (x y : K) : (x + y).c = x.c + y.c := rfl

@[simp] theorem add_d (x y : K) : (x + y).d = x.d + y.d := rfl

@[simp] theorem neg_a (x : K) : (-x).a = -x.a := rfl

@[simp] theorem neg_b (x : K) : (-x).b = -x.b := rfl

@[simp] theorem neg_c (x : K) : (-x).c = -x.c := rfl

@[simp] theorem neg_d (x : K) : (-x).d = -x.d := rfl

@[simp] theorem mul_a (x y : K) :
    (x * y).a = x.a * y.a - x.b * y.d - x.c * y.c - x.d * y.b := rfl

@[simp] theorem mul_b (x y : K) :
    (x * y).b = x.a * y.b + x.b * y.a - x.c * y.d - x.d * y.c := rfl

@[simp] theorem mul_c (x y : K) :
    (x * y).c = x.a * y.c + x.b * y.b + x.c * y.a - x.d * y.d := rfl

@[simp] theorem mul_d (x y : K) :
    (x * y).d = x.a * y.d + x.b * y.c + x.c * y.b + x.d * y.a := rfl

instance instCommRing : CommRing K where
  add := (· + ·)
  add_assoc x y z := by ext <;> simp <;> ring
  zero := 0
  zero_add x := by ext <;> simp
  add_zero x := by ext <;> simp
  add_comm x y := by ext <;> simp <;> ring
  mul := (· * ·)
  mul_assoc x y z := by ext <;> simp <;> ring
  one := 1
  one_mul x := by ext <;> simp
  mul_one x := by ext <;> simp
  left_distrib x y z := by ext <;> simp <;> ring
  right_distrib x y z := by ext <;> simp <;> ring
  zero_mul x := by ext <;> simp
  mul_zero x := by ext <;> simp
  neg := Neg.neg
  neg_add_cancel x := by ext <;> simp
  mul_comm x y := by ext <;> simp <;> ring
  nsmul := nsmulRec
  zsmul := zsmulRec

/-- The imaginary unit, i = ζ². -/
def im : K := ⟨0, 0, 1, 0⟩

/-- The real number 1/√2 = (ζ - ζ³)/2. -/
def invSqrtTwo : K := ⟨0, 1/2, 0, -1/2⟩

theorem invSqrtTwo_sq : invSqrtTwo * invSqrtTwo = ⟨1/2, 0, 0, 0⟩ := by
  ext <;> simp [invSqrtTwo] <;> norm_num

theorem im_sq : im * im = -1 := by
  ext <;> simp [im]

/-- Complex conjugation: ζ ↦ ζ⁻¹ = -ζ³. -/
def conj (z : K) : K := ⟨z.a, -z.d, -z.c, -z.b⟩

@[simp] theorem conj_zero : conj 0 = 0 := by
  ext <;> simp [conj]

@[simp] theorem conj_one : conj 1 = 1 := by
  ext <;> simp [conj]

theorem conj_add (x y : K) : conj (x + y) = conj x + conj y := by
  ext <;> simp [conj] <;> ring

theorem conj_mul (x y : K) : conj (x * y) = conj x * conj y := by
  ext <;> simp [conj] <;> ring

theorem conj_conj (x : K) : conj (conj x) = x := by
  ext <;> simp [conj]

end K

/-! ### Bit-level index utilities

Basis indices of an `n`-qubit system are natural numbers `k < 2^n`; the
value of qubit `q` in basis state `k` is bit `q` of `k` (qubit 0 is the
least-significant bit). -/

/-- Index `k` with bit `q` forced to the value `b`. -/
def setBitTo (k q : Nat) (b : Bool) : Nat :=
  if b then k ||| 2 ^ q else if k.testBit q then k ^^^ 2 ^ q else k

theorem testBit_setBitTo (k q : Nat) (b : Bool) (t : Nat) :
    (setBitTo k q b).testBit t = if t = q then b else k.testBit t := by
  by_cases ht : t = q
  · subst ht
    rcases b with _ | _
    · by_cases hb : k.testBit t <;>
        simp [setBitTo, hb, Nat.testBit_two_pow_self]
    · simp [setBitTo, Nat.testBit_two_pow_self]
  · have hqt : q ≠ t := fun h => ht h.symm
    rcases b with _ | _
    · by_cases hb : k.testBit q <;>
        simp [setBitTo, hb, ht, Nat.testBit_two_pow_of_ne hqt]
    · simp [setBitTo, ht, Nat.testBit_two_pow_of_ne hqt]

theorem setBitTo_self (k q : Nat) : setBitTo k q (k.testBit q) = k := by
  refine Nat.eq_of_testBit_eq fun t => ?_
  rw [testBit_setBitTo]
  by_cases ht : t = q <;> simp [ht]

theorem setBitTo_setBitTo (k q : Nat) (b b' : Bool) :
    setBitTo (setBitTo k q b) q b' = setBitTo k q b' := by
  refine Nat.eq_of_testBit_eq fun t => ?_
  rw [testBit_setBitTo, testBit_setBitTo, testBit_setBitTo]
  by_cases ht : t = q <;> simp [ht]

theorem setBitTo_lt (k q n : Nat) (b : Bool) (hk : k < 2 ^ n) (hq : q < n) :
    setBitTo k q b < 2 ^ n := by
  have h2 : (2 : Nat) ^ q < 2 ^ n := Nat.pow_lt_pow_right (by omega) hq
  rcases b with _ | _
  · by_cases hb : k.testBit q
    · simpa [setBitTo, hb] using Nat.xor_lt_two_pow hk h2
    · simpa [setBitTo, hb] using hk
  · simpa [setBitTo] using Nat.or_lt_two_pow hk h2

/-! ### The circuit model

Modelled from the spec (the circuit-construction and linear-algebra
library is an external dependency; only its call sites are in the
repository).  Gates are the generators the notebook uses; a statevector
is a coefficient function on basis indices, with qubit 0 at the
least-significant bit position of the index, as the spec's ordering
invariant states. -/

/-- Two-by-two gate matrices, as coefficient functions on indices 0 and 1. -/
abbrev Mat2 := Nat → Nat → K

/-- Identity coefficient matrix (any size). -/
def ident : Nat → Nat → K := fun i j => if i = j then 1 else 0

/-- The Pauli X (flip) matrix. -/
def matX : Mat2 := fun i j =>
  if (i = 0 ∧ j = 1) ∨ (i = 1 ∧ j = 0) then 1 else 0

/-- The Pauli Y matrix. -/
def matY : Mat2 := fun i j =>
  if i = 0 ∧ j = 1 then -K.im else if i = 1 ∧ j = 0 then K.im else 0

/-- The Hadamard matrix. -/
def matH : Mat2 := fun i j =>
  if i = 1 ∧ j = 1 then -K.invSqrtTwo
  else if i ≤ 1 ∧ j ≤ 1 then K.invSqrtTwo else 0

/-- Modelled from the spec: action of a single-qubit gate `G` on qubit `q`,
mixing the two basis indices that differ exactly at bit `q` of the label
integer (qubit 0 = least-significant bit). -/
def applyG1 (G : Mat2) (q : Nat) (v : Nat → K) : Nat → K := fun k =>
  G (if k.testBit q then 1 else 0) 0 * v (setBitTo k q false)
    + G (if k.testBit q then 1 else 0) 1 * v (setBitTo k q true)

/-- The gate generators used by the notebook. -/
inductive Gate where
  | x (q : Nat)
  | y (q : Nat)
  | h (q : Nat)
  | cx (c t : Nat)
  | cz (c t : Nat)
  | ccx (c1 c2 t : Nat)
  | ccz (c1 c2 t : Nat)
  | barrier
  deriving DecidableEq

/-- Modelled from the spec: the action of each gate on a statevector.
Controlled flips permute basis indices; controlled phases negate
amplitudes of indices whose control and target bits are all set. -/
def applyGate : Gate → (Nat → K) → (Nat → K)
  | .x q, v => applyG1 matX q v
  | .y q, v => applyG1 matY q v
  | .h q, v => applyG1 matH q v
  | .cx c t, v => fun k => v (if k.testBit c then k ^^^ 2 ^ t else k)
  | .cz c t, v => fun k => if k.testBit c && k.testBit t then -v k else v k
  | .ccx c1 c2 t, v => fun k => v (if k.testBit c1 && k.testBit c2 then k ^^^ 2 ^ t else k)
  | .ccz c1 c2 t, v => fun k => if k.testBit c1 && k.testBit c2 && k.testBit t then -v k else v k
  | .barrier, v => v

/-- Run a gate list (first gate applied first). -/
def runGates : List Gate → (Nat → K) → (Nat → K)
  | [], v => v
  | g :: gs, v => runGates gs (applyGate g v)

/-- A circuit: a number of qubits and an ordered list of operations. -/
structure Circuit where
  nqubits : Nat
  gates : List Gate
  deriving DecidableEq

/-- Modelled from the spec: `Statevector.from_int k` is the basis state
with amplitude 1 at basis index `k`. -/
def from_int (k : Nat) : Nat → K := fun j => if j = k then 1 else 0

/-- Modelled from the spec: `Statevector(qc)`, the image of the all-zero
input state under the circuit. -/
def Statevector (c : Circuit) : Nat → K := runGates c.gates (from_int 0)

/-- Modelled from the spec: `Operator(qc)`, the matrix of the circuit
(column `j` is the image of basis state `j`). -/
def Op (c : Circuit) : Nat → Nat → K := fun i j => runGates c.gates (from_int j) i

/-- Matrix of a single-qubit gate `G` embedded at qubit `q` of the full
space. -/
def opG1 (G : Mat2) (q : Nat) : Nat → Nat → K := fun i j => applyG1 G q (from_int j) i

/-- Kronecker product of coefficient matrices, `p` being the dimension of
the right factor `B`. -/
def kron (A B : Nat → Nat → K) (p : Nat) : Nat → Nat → K :=
  fun i j => A (i / p) (j / p) * B (i % p) (j % p)

/-- Valid qubit indices for a gate on `n` qubits: all in range and, for
multi-qubit gates, pairwise distinct. -/
def gateWf (n : Nat) : Gate → Bool
  | .x q => decide (q < n)
  | .y q => decide (q < n)
  | .h q => decide (q < n)
  | .cx c t => decide (c < n) && decide (t < n) && decide (c ≠ t)
  | .cz c t => decide (c < n) && decide (t < n) && decide (c ≠ t)
  | .ccx c1 c2 t =>
      decide (c1 < n) && decide (c2 < n) && decide (t < n) &&
        decide (c1 ≠ c2) && decide (c1 ≠ t) && decide (c2 ≠ t)
  | .ccz c1 c2 t =>
      decide (c1 < n) && decide (c2 < n) && decide (t < n) &&
        decide (c1 ≠ c2) && decide (c1 ≠ t) && decide (c2 ≠ t)
  | .barrier => true

/-- A well-formed circuit: every gate acts on valid qubit indices (the
library enforces this at construction time). -/
def wfc (c : Circuit) : Bool := c.gates.all (gateWf c.nqubits)

/-- Does the circuit contain no barrier? -/
def noBarrier (c : Circuit) : Bool := c.gates.all (fun g => decide (g ≠ Gate.barrier))

/-- Relabel the qubits of a gate. -/
def remapGate (f : Nat → Nat) : Gate → Gate
  | .x q => .x (f q)
  | .y q => .y (f q)
  | .h q => .h (f q)
  | .cx c t => .cx (f c) (f t)
  | .cz c t => .cz (f c) (f t)
  | .ccx c1 c2 t => .ccx (f c1) (f c2) (f t)
  | .ccz c1 c2 t => .ccz (f c1) (f c2) (f t)
  | .barrier => .barrier

/-- Modelled from the spec: `reverse_bits` returns a new circuit in which
qubit index `i` is relabeled to `N-1-i` and all operations are remapped
accordingly. -/
def reverse_bits (c : Circuit) : Circuit :=
  ⟨c.nqubits, c.gates.map (remapGate (fun q => c.nqubits - 1 - q))⟩

/-- Inverse of a generator gate; every generator in the notebook's gate
set is self-inverse (X² = Y² = H² = CX² = CZ² = CCX² = CCZ² = I). -/
def gateInv (g : Gate) : Gate := g

/-- Modelled from the spec: `inverse()` returns a new circuit with the
gate sequence reversed and each gate inverted. -/
def Circuit.inverse (c : Circuit) : Circuit :=
  ⟨c.nqubits, (c.gates.map gateInv).reverse⟩

/-- A sub-circuit packaged as a gate (`to_gate`). -/
structure SubGate where
  nqubits : Nat
  gates : List Gate

/-- Modelled from the spec: `to_gate` packages a circuit's operations as
a reusable gate; the circuit is not modified. -/
def to_gate (c : Circuit) : SubGate := ⟨c.nqubits, c.gates⟩

/-- Modelled from the spec: `compose` appends the sub-circuit's
operations, with sub-circuit qubit `t` remapped to `qargs[t]`. -/
def composeCirc (c : Circuit) (g : SubGate) (qargs : List Nat) : Circuit :=
  ⟨c.nqubits, c.gates ++ g.gates.map (remapGate fun t => qargs.getD t 0)⟩

/-- Modelled from the spec: the `compose` API call.  The first component
is the state of the operand circuit after the call, the second the
returned circuit (`none` when `inplace` is requested). -/
def composeAPI (c : Circuit) (g : SubGate) (qargs : List Nat) (inplace : Bool) :
    Circuit × Option Circuit :=
  if inplace then (composeCirc c g qargs, none) else (c, some (composeCirc c g qargs))

/-- Modelled from the spec: the `to_gate` API call; first component is
the state of the operand circuit after the call. -/
def toGateAPI (c : Circuit) : Circuit × SubGate := (c, to_gate c)

/-- Modelled from the spec: probability of each basis index, the squared
magnitude `conj(v k) * v k` of the coefficient. -/
def probabilities (v : Nat → K) : Nat → K := fun k => K.conj (v k) * v k

/-- Hermitian inner product on the `2^n`-dimensional coefficient space. -/
def innerProd (n : Nat) (u v : Nat → K) : K :=
  ∑ k ∈ Finset.range (2 ^ n), K.conj (u k) * v k

/-- Modelled from the spec: the basis-label string (most-significant
qubit first) of basis index `k` on `n` qubits, by binary expansion. -/
def labelString : Nat → Nat → List Char
  | 0, _ => []
  | n + 1, k => labelString n (k / 2) ++ [if k % 2 = 1 then '1' else '0']

/-- Modelled from the spec: single-qubit amplitude assigned by a label
character to a qubit value (`from_label` supports 0, 1, + and -). -/
def charAmp : Char → Bool → K
  | '0', b => if b then 0 else 1
  | '1', b => if b then 1 else 0
  | '+', _ => K.invSqrtTwo
  | '-', b => if b then -K.invSqrtTwo else K.invSqrtTwo
  | _, _ => 0

/-- Modelled from the spec: `Statevector.from_label`; the first label
character describes the highest-indexed qubit, and the amplitude of a
basis index is the product of the per-qubit amplitudes. -/
def from_label : List Char → Nat → K
  | [], j => if j = 0 then 1 else 0
  | ch :: rest, j => charAmp ch (j.testBit rest.length) * from_label rest (j % 2 ^ rest.length)

/-- The notebook's 2-qubit circuit with a single X gate on qubit 0. -/
def two_qubit_x : Circuit := ⟨2, [Gate.x 0]⟩

/-- Sub-register index of a full-space index `i`: bit `t` of the result
is bit `f t` of `i`, for `t < m`. -/
def extract (f : Nat → Nat) : Nat → Nat → Nat
  | 0, _ => 0
  | m + 1, i => extract f m i ||| (if i.testBit (f m) then 2 ^ m else 0)

/-- Full-space index `i` with the bits at mapped positions `f 0 … f (m-1)`
replaced by the corresponding bits of the sub-register index `j`. -/
def inject (f : Nat → Nat) : Nat → Nat → Nat → Nat
  | 0, i, _ => i
  | m + 1, i, j => setBitTo (inject f m i j) (f m) (j.testBit m)

/-! ### Basis labels -/

theorem labelString_length (n k : Nat) : (labelString n k).length = n := by
  induction n generalizing k with
  | zero => rfl
  | succ n ih => simp [labelString, ih]

theorem labelString_getD (n k i : Nat) (hi : i < n) (d : Char) :
    (labelString n k).getD i d = (if k.testBit (n - 1 - i) then '1' else '0') := by
  induction n generalizing k i with
  | zero => omega
  | succ n ih =>
    rcases Nat.lt_or_ge i n with h | h
    · have hl : i < (labelString n (k / 2)).length := by
        rw [labelString_length]; exact h
      have hstep : (labelString (n + 1) k).getD i d = (labelString n (k / 2)).getD i d := by
        simp [labelString, List.getD_eq_getElem?_getD, List.getElem?_append_left hl]
      rw [hstep, ih (k / 2) i h]
      have hb : (k / 2).testBit (n - 1 - i) = k.testBit (n + 1 - 1 - i) := by
        rw [Nat.testBit_div_two]
        congr 1
        omega
      rw [hb]
    · have hi' : i = n := by omega
      rw [hi']
      have hlen : (labelString n (k / 2)).length = n := labelString_length n (k / 2)
      have hcat := List.getElem?_concat_length (labelString n (k / 2))
        (if k % 2 = 1 then '1' else '0')
      rw [hlen] at hcat
      have hstep : (labelString (n + 1) k).getD n d = (if k % 2 = 1 then '1' else '0') := by
        simp [labelString, List.getD_eq_getElem?_getD, hcat]
      rw [hstep]
      have h0 : n + 1 - 1 - n = 0 := by omega
      rw [h0, Nat.testBit_zero]
      by_cases h2 : k % 2 = 1 <;> simp [h2]

theorem mod_two_pow_succ_div_two (j L : Nat) : j % 2 ^ (L + 1) / 2 = j / 2 % 2 ^ L := by
  have h : (2 : Nat) ^ (L + 1) = 2 * 2 ^ L := by ring
  rw [h, Nat.mod_mul_right_div_self]

theorem from_label_concat (s : List Char) (c : Char) (j : Nat)
    (hj : j < 2 ^ (s.length + 1)) :
    from_label (s ++ [c]) j = charAmp c (j.testBit 0) * from_label s (j / 2) := by
  induction s generalizing j with
  | nil =>
    have hj1 : j < 2 := by simpa using hj
    have hj2 : j / 2 = 0 := by omega
    simp [from_label, Nat.mod_one, hj2]
  | cons ch s2 ih =>
    have hmodlt : j % 2 ^ (s2.length + 1) < 2 ^ (s2.length + 1) :=
      Nat.mod_lt _ (Nat.two_pow_pos _)
    simp only [List.cons_append, from_label, List.append_eq, List.length_append,
      List.length_cons, List.length_nil, Nat.zero_add]
    rw [ih (j % 2 ^ (s2.length + 1)) hmodlt, mod_two_pow_succ_div_two]
    have h0 : (j % 2 ^ (s2.length + 1)).testBit 0 = j.testBit 0 := by
      simp [Nat.testBit_mod_two_pow]
    have h1 : (j / 2).testBit s2.length = j.testBit (s2.length + 1) := by
      rw [Nat.testBit_div_two]
    rw [h0, h1]
    ring

theorem from_label_labelString (n k j : Nat) (hk : k < 2 ^ n) (hj : j < 2 ^ n) :
    from_label (labelString n k) j = from_int k j := by
  induction n generalizing k j with
  | zero =>
    have hk0 : k = 0 := by simpa using hk
    have hj0 : j = 0 := by simpa using hj
    subst hk0; subst hj0
    simp [labelString, from_label, from_int]
  | succ n ih =>
    have hlen := labelString_length n (k / 2)
    rw [labelString, from_label_concat _ _ j (by rw [hlen]; exact hj)]
    have hk2 : k / 2 < 2 ^ n := by
      have : (2 : Nat) ^ (n + 1) = 2 * 2 ^ n := by ring
      omega
    have hj2 : j / 2 < 2 ^ n := by
      have : (2 : Nat) ^ (n + 1) = 2 * 2 ^ n := by ring
      omega
    rw [ih (k / 2) (j / 2) hk2 hj2, Nat.testBit_zero]
    by_cases hk1 : k % 2 = 1 <;> by_cases hj1 : j % 2 = 1
    · have hiff : (j / 2 = k / 2) = (j = k) := propext (by omega)
      simp [from_int, charAmp, hk1, hj1, hiff]
    · have hne : ¬(j = k) := by omega
      simp [from_int, charAmp, hk1, hj1, hne]
    · have hne : ¬(j = k) := by omega
      simp [from_int, charAmp, hk1, hj1, hne]
    · have hiff : (j / 2 = k / 2) = (j = k) := propext (by omega)
      simp [from_int, charAmp, hk1, hj1, hiff]

/-! ### Embedding a single-qubit gate as a Kronecker product -/

theorem testBit_div_two_pow (i a t : Nat) : (i / 2 ^ a).testBit t = i.testBit (a + t) := by
  simp [Nat.testBit_to_div_mod, Nat.div_div_eq_div_mul, ← pow_add]

theorem div_pow_eq_iff_testBit (i j q : Nat) :
    i / 2 ^ (q + 1) = j / 2 ^ (q + 1) ↔ (∀ t, q < t → i.testBit t = j.testBit t) := by
  constructor
  · intro h t ht
    have h1 : i.testBit t = (i / 2 ^ (q + 1)).testBit (t - (q + 1)) := by
      rw [testBit_div_two_pow]
      congr 1
      omega
    have h2 : j.testBit t = (j / 2 ^ (q + 1)).testBit (t - (q + 1)) := by
      rw [testBit_div_two_pow]
      congr 1
      omega
    rw [h1, h2, h]
  · intro h
    refine Nat.eq_of_testBit_eq fun t => ?_
    rw [testBit_div_two_pow, testBit_div_two_pow]
    exact h _ (by omega)

theorem mod_pow_eq_iff_testBit (i j q : Nat) :
    i % 2 ^ q = j % 2 ^ q ↔ (∀ t, t < q → i.testBit t = j.testBit t) := by
  constructor
  · intro h t ht
    have h1 : i.testBit t = (i % 2 ^ q).testBit t := by
      simp [Nat.testBit_mod_two_pow, ht]
    have h2 : j.testBit t = (j % 2 ^ q).testBit t := by
      simp [Nat.testBit_mod_two_pow, ht]
    rw [h1, h2, h]
  · intro h
    refine Nat.eq_of_testBit_eq fun t => ?_
    simp only [Nat.testBit_mod_two_pow]
    by_cases ht : t < q <;> simp [ht]
    exact h t ht

theorem setBitTo_eq_iff (i j q : Nat) (b : Bool) :
    setBitTo i q b = j ↔
      (i / 2 ^ (q + 1) = j / 2 ^ (q + 1) ∧ i % 2 ^ q = j % 2 ^ q ∧ j.testBit q = b) := by
  constructor
  · intro h
    subst h
    refine ⟨?_, ?_, ?_⟩
    · rw [div_pow_eq_iff_testBit]
      intro t ht
      rw [testBit_setBitTo]
      simp [show ¬(t = q) by omega]
    · rw [mod_pow_eq_iff_testBit]
      intro t ht
      rw [testBit_setBitTo]
      simp [show ¬(t = q) by omega]
    · rw [testBit_setBitTo]
      simp
  · rintro ⟨hdiv, hmod, hb⟩
    refine Nat.eq_of_testBit_eq fun t => ?_
    rw [testBit_setBitTo]
    by_cases ht : t = q
    · subst ht
      simp [hb]
    · rcases Nat.lt_or_ge t q with h | h
      · simpa [ht] using (mod_pow_eq_iff_testBit i j q).mp hmod t h
      · have ht' : q < t := by omega
        simpa [ht] using (div_pow_eq_iff_testBit i j q).mp hdiv t ht'

theorem mod_pow_succ_div_pow (i q : Nat) :
    i % 2 ^ (q + 1) / 2 ^ q = if i.testBit q then 1 else 0 := by
  have h : i % 2 ^ (q + 1) / 2 ^ q = i / 2 ^ q % 2 := by
    rw [pow_succ, Nat.mod_mul_right_div_self]
  rw [h, Nat.testBit_to_div_mod]
  rcases Nat.mod_two_eq_zero_or_one (i / 2 ^ q) with h2 | h2 <;> simp [h2]

theorem opG1_eq_kron (G : Mat2) (q : Nat) (i j : Nat) :
    opG1 G q i j = kron ident (kron G ident (2 ^ q)) (2 ^ (q + 1)) i j := by
  have hdvd : (2 : Nat) ^ q ∣ 2 ^ (q + 1) := pow_dvd_pow 2 (Nat.le_succ q)
  simp only [opG1, applyG1, from_int, kron, ident, Nat.mod_mod_of_dvd _ hdvd,
    mod_pow_succ_div_pow]
  by_cases hdiv : i / 2 ^ (q + 1) = j / 2 ^ (q + 1)
  · by_cases hmod : i % 2 ^ q = j % 2 ^ q
    · rcases hbi : i.testBit q with _ | _ <;> rcases hbj : j.testBit q with _ | _ <;>
        simp [setBitTo_eq_iff, hdiv, hmod, hbi, hbj]
    · simp [setBitTo_eq_iff, hmod]
  · simp [setBitTo_eq_iff, hdiv]

/-! ### Embedding a sub-circuit along a qubit-index mapping -/

theorem testBit_extract (f : Nat → Nat) (m i t : Nat) :
    (extract f m i).testBit t = (decide (t < m) && i.testBit (f t)) := by
  induction m with
  | zero => simp [extract]
  | succ m ih =>
    have hm : extract f (m + 1) i
        = extract f m i ||| (if i.testBit (f m) then 2 ^ m else 0) := rfl
    rw [hm, Nat.testBit_or, ih]
    rcases Nat.lt_trichotomy t m with h | h | h
    · have h1 : (t < m) = True := by simp [h]
      have h2 : (t < m + 1) = True := by simp; omega
      by_cases hb : i.testBit (f m) <;>
        simp [h1, h2, hb, Nat.testBit_two_pow_of_ne (by omega : m ≠ t)]
    · subst h
      by_cases hb : i.testBit (f t) <;>
        simp [hb, Nat.testBit_two_pow_self]
    · have h1 : ¬(t < m) := by omega
      have h2 : ¬(t < m + 1) := by omega
      by_cases hb : i.testBit (f m) <;>
        simp [h1, h2, hb, Nat.testBit_two_pow_of_ne (by omega : m ≠ t)]

theorem extract_lt (f : Nat → Nat) (m i : Nat) : extract f m i < 2 ^ m := by
  induction m with
  | zero => simp [extract]
  | succ m ih =>
    have hm : extract f (m + 1) i
        = extract f m i ||| (if i.testBit (f m) then 2 ^ m else 0) := rfl
    rw [hm]
    refine Nat.or_lt_two_pow (lt_trans ih ?_) ?_
    · exact Nat.pow_lt_pow_right (by omega) (by omega)
    · by_cases hb : i.testBit (f m)
      · rw [if_pos hb]
        exact Nat.pow_lt_pow_right (by omega) (by omega)
      · rw [if_neg hb]
        exact Nat.two_pow_pos _

theorem testBit_inject_unmapped (f : Nat → Nat) (m i j t : Nat)
    (h : ∀ s, s < m → f s ≠ t) :
    (inject f m i j).testBit t = i.testBit t := by
  induction m with
  | zero => rfl
  | succ m ih =>
    have hm : inject f (m + 1) i j
        = setBitTo (inject f m i j) (f m) (j.testBit m) := rfl
    rw [hm, testBit_setBitTo]
    have hne : ¬(t = f m) := fun ht => h m (by omega) ht.symm
    rw [if_neg hne]
    exact ih fun s hs => h s (by omega)

theorem testBit_inject_mapped (f : Nat → Nat) (m i j s : Nat)
    (hinj : ∀ s1 s2, s1 < m → s2 < m → f s1 = f s2 → s1 = s2) (hs : s < m) :
    (inject f m i j).testBit (f s) = j.testBit s := by
  induction m with
  | zero => omega
  | succ m ih =>
    have hm : inject f (m + 1) i j
        = setBitTo (inject f m i j) (f m) (j.testBit m) := rfl
    rw [hm, testBit_setBitTo]
    by_cases hsm : s = m
    · subst hsm
      simp
    · have hne : ¬(f s = f m) := fun h => hsm (hinj s m hs (by omega) h)
      rw [if_neg hne]
      exact ih (fun s1 s2 h1 h2 => hinj s1 s2 (by omega) (by omega)) (by omega)

theorem inject_extract_self (f : Nat → Nat) (m i : Nat)
    (hinj : ∀ s1 s2, s1 < m → s2 < m → f s1 = f s2 → s1 = s2) :
    inject f m i (extract f m i) = i := by
  refine Nat.eq_of_testBit_eq fun t => ?_
  by_cases h : ∃ s, s < m ∧ f s = t
  · obtain ⟨s, hs, rfl⟩ := h
    rw [testBit_inject_mapped f m i _ s hinj hs, testBit_extract]
    simp [hs]
  · push_neg at h
    exact testBit_inject_unmapped f m i _ t h

theorem inject_setBitTo (f : Nat → Nat) (m i j q : Nat) (b : Bool)
    (hinj : ∀ s1 s2, s1 < m → s2 < m → f s1 = f s2 → s1 = s2) (hq : q < m) :
    inject f m i (setBitTo j q b) = setBitTo (inject f m i j) (f q) b := by
  refine Nat.eq_of_testBit_eq fun t => ?_
  by_cases h : ∃ s, s < m ∧ f s = t
  · obtain ⟨s, hs, rfl⟩ := h
    rw [testBit_inject_mapped f m i _ s hinj hs, testBit_setBitTo, testBit_setBitTo]
    by_cases hsq : s = q
    · subst hsq
      simp
    · have h1 : ¬(f s = f q) := fun h2 => hsq (hinj s q hs hq h2)
      rw [if_neg hsq, if_neg h1, testBit_inject_mapped f m i j s hinj hs]
  · push_neg at h
    rw [testBit_inject_unmapped f m i _ t h, testBit_setBitTo]
    have h1 : ¬(t = f q) := fun h2 => h q hq h2.symm
    rw [if_neg h1, testBit_inject_unmapped f m i j t h]

theorem xor_pow_eq_setBitTo (j q : Nat) :
    j ^^^ 2 ^ q = setBitTo j q (!(j.testBit q)) := by
  refine Nat.eq_of_testBit_eq fun t => ?_
  rw [Nat.testBit_xor, testBit_setBitTo]
  by_cases ht : t = q
  · subst ht
    simp [Nat.testBit_two_pow_self]
  · simp [Nat.testBit_two_pow_of_ne (fun h => ht h.symm), ht]

theorem inject_xor_pow (f : Nat → Nat) (m i j q : Nat)
    (hinj : ∀ s1 s2, s1 < m → s2 < m → f s1 = f s2 → s1 = s2) (hq : q < m) :
    inject f m i (j ^^^ 2 ^ q) = inject f m i j ^^^ 2 ^ (f q) := by
  rw [xor_pow_eq_setBitTo, xor_pow_eq_setBitTo,
    inject_setBitTo f m i j q _ hinj hq,
    testBit_inject_mapped f m i j q hinj hq]

theorem applyGate_remap (f : Nat → Nat) (m : Nat) (g : Gate)
    (hinj : ∀ s1 s2, s1 < m → s2 < m → f s1 = f s2 → s1 = s2)
    (hg : gateWf m g = true) (v : Nat → K) (i j : Nat) :
    applyGate (remapGate f g) v (inject f m i j)
      = applyGate g (fun j2 => v (inject f m i j2)) j := by
  cases g with
  | x q =>
    have hq : q < m := by simpa [gateWf] using hg
    simp only [remapGate, applyGate, applyG1,
      testBit_inject_mapped f m i j q hinj hq,
      ← inject_setBitTo f m i j q _ hinj hq]
  | y q =>
    have hq : q < m := by simpa [gateWf] using hg
    simp only [remapGate, applyGate, applyG1,
      testBit_inject_mapped f m i j q hinj hq,
      ← inject_setBitTo f m i j q _ hinj hq]
  | h q =>
    have hq : q < m := by simpa [gateWf] using hg
    simp only [remapGate, applyGate, applyG1,
      testBit_inject_mapped f m i j q hinj hq,
      ← inject_setBitTo f m i j q _ hinj hq]
  | cx c t =>
    have hc : c < m ∧ t < m := by
      simp [gateWf] at hg
      omega
    simp only [remapGate, applyGate,
      testBit_inject_mapped f m i j c hinj hc.1]
    by_cases hb : j.testBit c <;>
      simp [hb, inject_xor_pow f m i j t hinj hc.2]
  | cz c t =>
    have hc : c < m ∧ t < m := by
      simp [gateWf] at hg
      omega
    simp only [remapGate, applyGate,
      testBit_inject_mapped f m i j c hinj hc.1,
      testBit_inject_mapped f m i j t hinj hc.2]
  | ccx c1 c2 t =>
    have hc : c1 < m ∧ c2 < m ∧ t < m := by
      simp [gateWf] at hg
      omega
    simp only [remapGate, applyGate,
      testBit_inject_mapped f m i j c1 hinj hc.1,
      testBit_inject_mapped f m i j c2 hinj hc.2.1]
    by_cases hb1 : j.testBit c1 <;> by_cases hb2 : j.testBit c2 <;>
      simp [hb1, hb2, inject_xor_pow f m i j t hinj hc.2.2]
  | ccz c1 c2 t =>
    have hc : c1 < m ∧ c2 < m ∧ t < m := by
      simp [gateWf] at hg
      omega
    simp only [remapGate, applyGate,
      testBit_inject_mapped f m i j c1 hinj hc.1,
      testBit_inject_mapped f m i j c2 hinj hc.2.1,
      testBit_inject_mapped f m i j t hinj hc.2.2]
  | barrier => rfl

theorem runGates_map_remap (f : Nat → Nat) (m : Nat) (gs : List Gate)
    (hinj : ∀ s1 s2, s1 < m → s2 < m → f s1 = f s2 → s1 = s2)
    (hwf : gs.all (gateWf m) = true) (v : Nat → K) (i : Nat) :
    runGates (gs.map (remapGate f)) v i
      = runGates gs (fun j => v (inject f m i j)) (extract f m i) := by
  induction gs generalizing v with
  | nil =>
    simp [runGates, inject_extract_self f m i hinj]
  | cons g gs ih =>
    rw [List.all_cons, Bool.and_eq_true] at hwf
    obtain ⟨hg, hgs⟩ := hwf
    simp only [List.map_cons, runGates]
    rw [ih hgs (applyGate (remapGate f g) v)]
    congr 1
    funext j
    exact applyGate_remap f m g hinj hg v i j

/-! ### Gate inverses and unitarity -/

theorem K.conj_neg (x : K) : K.conj (-x) = -K.conj x := by
  ext <;> simp [K.conj]

theorem matX_inv_entries (a b : Nat) (ha : a ≤ 1) (hb : b ≤ 1) :
    matX a 0 * matX 0 b + matX a 1 * matX 1 b = ident a b := by
  interval_cases a <;> interval_cases b <;> simp [matX, ident]

theorem matY_inv_entries (a b : Nat) (ha : a ≤ 1) (hb : b ≤ 1) :
    matY a 0 * matY 0 b + matY a 1 * matY 1 b = ident a b := by
  interval_cases a <;> interval_cases b <;>
    ext <;> simp [matY, ident, K.im] <;> norm_num

theorem matH_inv_entries (a b : Nat) (ha : a ≤ 1) (hb : b ≤ 1) :
    matH a 0 * matH 0 b + matH a 1 * matH 1 b = ident a b := by
  interval_cases a <;> interval_cases b <;>
    ext <;> simp [matH, ident, K.invSqrtTwo] <;> norm_num

theorem matX_conj_unitary (a b : Nat) (ha : a ≤ 1) (hb : b ≤ 1) :
    K.conj (matX 0 a) * matX 0 b + K.conj (matX 1 a) * matX 1 b = ident a b := by
  interval_cases a <;> interval_cases b <;>
    ext <;> simp [matX, ident, K.conj] <;> norm_num

theorem matY_conj_unitary (a b : Nat) (ha : a ≤ 1) (hb : b ≤ 1) :
    K.conj (matY 0 a) * matY 0 b + K.conj (matY 1 a) * matY 1 b = ident a b := by
  interval_cases a <;> interval_cases b <;>
    ext <;> simp [matY, ident, K.conj, K.im] <;> norm_num

theorem matH_conj_unitary (a b : Nat) (ha : a ≤ 1) (hb : b ≤ 1) :
    K.conj (matH 0 a) * matH 0 b + K.conj (matH 1 a) * matH 1 b = ident a b := by
  interval_cases a <;> interval_cases b <;>
    ext <;> simp [matH, ident, K.conj, K.invSqrtTwo] <;> norm_num

theorem applyG1_applyG1 (G Gi : Mat2) (q : Nat) (v : Nat → K) (k : Nat)
    (hGI : ∀ a b, a ≤ 1 → b ≤ 1 → Gi a 0 * G 0 b + Gi a 1 * G 1 b = ident a b) :
    applyG1 Gi q (applyG1 G q v) k = v k := by
  have h0 : (setBitTo k q false).testBit q = false := by
    rw [testBit_setBitTo]
    simp
  have h1 : (setBitTo k q true).testBit q = true := by
    rw [testBit_setBitTo]
    simp
  have e00 := hGI 0 0 (by omega) (by omega)
  have e01 := hGI 0 1 (by omega) (by omega)
  have e10 := hGI 1 0 (by omega) (by omega)
  have e11 := hGI 1 1 (by omega) (by omega)
  simp only [ident] at e00 e01 e10 e11
  norm_num at e00 e01 e10 e11
  by_cases hb : k.testBit q
  · have hk : setBitTo k q true = k := by
      have h := setBitTo_self k q
      rwa [hb] at h
    simp only [applyG1, h0, h1, setBitTo_setBitTo, hb, if_true, if_false,
      Bool.false_eq_true, hk]
    linear_combination v (setBitTo k q false) * e10 + v k * e11
  · have hbf : k.testBit q = false := by
      rwa [Bool.not_eq_true] at hb
    have hk : setBitTo k q false = k := by
      have h := setBitTo_self k q
      rwa [hbf] at h
    simp only [applyG1, h0, h1, setBitTo_setBitTo, hbf, if_true, if_false,
      Bool.false_eq_true, hk]
    linear_combination v k * e00 + v (setBitTo k q true) * e01

theorem condFlip_invol (c t k : Nat) (hct : c ≠ t) :
    (if (if k.testBit c then k ^^^ 2 ^ t else k).testBit c then
        (if k.testBit c then k ^^^ 2 ^ t else k) ^^^ 2 ^ t
      else (if k.testBit c then k ^^^ 2 ^ t else k)) = k := by
  by_cases hb : k.testBit c
  · have hbt : (k ^^^ 2 ^ t).testBit c = k.testBit c := by
      rw [Nat.testBit_xor, Nat.testBit_two_pow_of_ne (Ne.symm hct)]
      simp
    simp [hb, hbt, Nat.xor_assoc]
  · simp [hb]

theorem condFlip2_invol (c1 c2 t k : Nat) (h1 : c1 ≠ t) (h2 : c2 ≠ t) :
    (if (if k.testBit c1 && k.testBit c2 then k ^^^ 2 ^ t else k).testBit c1 &&
          (if k.testBit c1 && k.testBit c2 then k ^^^ 2 ^ t else k).testBit c2 then
        (if k.testBit c1 && k.testBit c2 then k ^^^ 2 ^ t else k) ^^^ 2 ^ t
      else (if k.testBit c1 && k.testBit c2 then k ^^^ 2 ^ t else k)) = k := by
  by_cases hb : k.testBit c1 && k.testBit c2
  · have hbt1 : (k ^^^ 2 ^ t).testBit c1 = k.testBit c1 := by
      rw [Nat.testBit_xor, Nat.testBit_two_pow_of_ne (Ne.symm h1)]
      simp
    have hbt2 : (k ^^^ 2 ^ t).testBit c2 = k.testBit c2 := by
      rw [Nat.testBit_xor, Nat.testBit_two_pow_of_ne (Ne.symm h2)]
      simp
    simp [hb, hbt1, hbt2, Nat.xor_assoc]
  · simp [hb]

theorem applyGate_cancel (g : Gate) (n : Nat) (hg : gateWf n g = true)
    (v : Nat → K) (k : Nat) :
    applyGate (gateInv g) (applyGate g v) k = v k := by
  cases g with
  | x q => exact applyG1_applyG1 matX matX q v k matX_inv_entries
  | y q => exact applyG1_applyG1 matY matY q v k matY_inv_entries
  | h q => exact applyG1_applyG1 matH matH q v k matH_inv_entries
  | cx c t =>
    have hct : c ≠ t := by
      simp [gateWf] at hg
      omega
    simp only [gateInv, applyGate]
    rw [condFlip_invol c t k hct]

  | cz c t =>
    simp only [gateInv, applyGate]
    by_cases hb : k.testBit c && k.testBit t <;> simp [hb]
  | ccx c1 c2 t =>
    have hct : c1 ≠ t ∧ c2 ≠ t := by
      simp [gateWf] at hg
      omega
    simp only [gateInv, applyGate]
    rw [condFlip2_invol c1 c2 t k hct.1 hct.2]
  | ccz c1 c2 t =>
    simp only [gateInv, applyGate]
    by_cases hb : k.testBit c1 && k.testBit c2 && k.testBit t <;> simp [hb]
  | barrier => rfl

theorem map_gateInv (gs : List Gate) : gs.map gateInv = gs := by
  induction gs with
  | nil => rfl
  | cons g gs ih => simp [gateInv, ih]

theorem runGates_append (gs1 gs2 : List Gate) (v : Nat → K) :
    runGates (gs1 ++ gs2) v = runGates gs2 (runGates gs1 v) := by
  induction gs1 generalizing v with
  | nil => rfl
  | cons g gs ih => simp [runGates, ih]

theorem runGates_cancel (gs : List Gate) (n : Nat) (hwf : gs.all (gateWf n) = true)
    (v : Nat → K) (k : Nat) :
    runGates gs.reverse (runGates gs v) k = v k := by
  induction gs generalizing v k with
  | nil => rfl
  | cons g gs ih =>
    rw [List.all_cons, Bool.and_eq_true] at hwf
    obtain ⟨hg, hgs⟩ := hwf
    simp only [runGates, List.reverse_cons, runGates_append]
    have hfun : runGates gs.reverse (runGates gs (applyGate g v)) = applyGate g v :=
      funext fun k2 => ih hgs (applyGate g v) k2
    rw [hfun]
    have hginv : applyGate g (applyGate g v) k = v k := by
      have h := applyGate_cancel g n hg v k
      rwa [gateInv] at h
    simpa [runGates] using hginv

/-! ### Norm preservation -/

theorem or_xor_cancel (k q : Nat) (hb : k.testBit q = false) :
    (k ||| 2 ^ q) ^^^ 2 ^ q = k := by
  refine Nat.eq_of_testBit_eq fun t => ?_
  rw [Nat.testBit_xor, Nat.testBit_or]
  by_cases ht : t = q
  · subst ht
    simp [Nat.testBit_two_pow_self, hb]
  · simp [Nat.testBit_two_pow_of_ne (fun h => ht h.symm)]

theorem xor_or_cancel (k q : Nat) (hb : k.testBit q = true) :
    (k ^^^ 2 ^ q) ||| 2 ^ q = k := by
  refine Nat.eq_of_testBit_eq fun t => ?_
  rw [Nat.testBit_or, Nat.testBit_xor]
  by_cases ht : t = q
  · subst ht
    simp [Nat.testBit_two_pow_self, hb]
  · simp [Nat.testBit_two_pow_of_ne (fun h => ht h.symm)]

theorem sum_filter_or_shift (n q : Nat) (hq : q < n) (F : Nat → K) :
    ∑ k ∈ (Finset.range (2 ^ n)).filter (fun k => k.testBit q = false), F (k ||| 2 ^ q)
      = ∑ k ∈ (Finset.range (2 ^ n)).filter (fun k => k.testBit q = true), F k := by
  have hpow : (2 : Nat) ^ q < 2 ^ n := Nat.pow_lt_pow_right (by omega) hq
  refine Finset.sum_bij' (fun k _ => k ||| 2 ^ q) (fun k _ => k ^^^ 2 ^ q)
    ?_ ?_ ?_ ?_ ?_
  · intro a ha
    simp only [Finset.mem_filter, Finset.mem_range] at ha ⊢
    refine ⟨Nat.or_lt_two_pow ha.1 hpow, ?_⟩
    simp [Nat.testBit_two_pow_self]
  · intro a ha
    simp only [Finset.mem_filter, Finset.mem_range] at ha ⊢
    refine ⟨Nat.xor_lt_two_pow ha.1 hpow, ?_⟩
    simp [Nat.testBit_two_pow_self, ha.2]
  · intro a ha
    simp only [Finset.mem_filter, Finset.mem_range] at ha
    exact or_xor_cancel a q ha.2
  · intro a ha
    simp only [Finset.mem_filter, Finset.mem_range] at ha
    exact xor_or_cancel a q ha.2
  · intro a ha
    rfl

theorem sum_pair_split (n q : Nat) (hq : q < n) (F : Nat → K) :
    ∑ k ∈ Finset.range (2 ^ n), F k
      = ∑ k ∈ (Finset.range (2 ^ n)).filter (fun k => k.testBit q = false),
          (F k + F (k ||| 2 ^ q)) := by
  rw [Finset.sum_add_distrib, sum_filter_or_shift n q hq F]
  rw [← Finset.sum_filter_add_sum_filter_not (Finset.range (2 ^ n))
    (fun k => k.testBit q = false) F]
  congr 1
  apply Finset.sum_congr _ (fun k _ => rfl)
  ext k
  simp

theorem sum_range_invol (N : Nat) (σ : Nat → Nat)
    (hmem : ∀ k, k < N → σ k < N) (hinv : ∀ k, k < N → σ (σ k) = k) (F : Nat → K) :
    ∑ k ∈ Finset.range N, F (σ k) = ∑ k ∈ Finset.range N, F k := by
  refine Finset.sum_bij' (fun k _ => σ k) (fun k _ => σ k) ?_ ?_ ?_ ?_ ?_
  · intro a ha
    simp only [Finset.mem_range] at ha ⊢
    exact hmem a ha
  · intro a ha
    simp only [Finset.mem_range] at ha ⊢
    exact hmem a ha
  · intro a ha
    simp only [Finset.mem_range] at ha
    exact hinv a ha
  · intro a ha
    simp only [Finset.mem_range] at ha
    exact hinv a ha
  · intro a ha
    rfl

theorem innerProd_applyG1 (G : Mat2) (q n : Nat) (hq : q < n)
    (hU : ∀ a b, a ≤ 1 → b ≤ 1 →
      K.conj (G 0 a) * G 0 b + K.conj (G 1 a) * G 1 b = ident a b)
    (u v : Nat → K) :
    innerProd n (applyG1 G q u) (applyG1 G q v) = innerProd n u v := by
  unfold innerProd
  rw [sum_pair_split n q hq (fun k => K.conj (applyG1 G q u k) * applyG1 G q v k),
    sum_pair_split n q hq (fun k => K.conj (u k) * v k)]
  apply Finset.sum_congr rfl
  intro k hk
  simp only [Finset.mem_filter, Finset.mem_range] at hk
  obtain ⟨hklt, hkb⟩ := hk
  have e0 : setBitTo k q false = k := by
    have h := setBitTo_self k q
    rwa [hkb] at h
  have e1 : setBitTo k q true = k ||| 2 ^ q := by
    simp [setBitTo]
  have hb1 : (k ||| 2 ^ q).testBit q = true := by
    simp [Nat.testBit_two_pow_self]
  have e0' : setBitTo (k ||| 2 ^ q) q false = k := by
    rw [← e1, setBitTo_setBitTo, e0]
  have e1' : setBitTo (k ||| 2 ^ q) q true = k ||| 2 ^ q := by
    rw [← e1, setBitTo_setBitTo, e1]
  have h00 := hU 0 0 (by omega) (by omega)
  have h01 := hU 0 1 (by omega) (by omega)
  have h10 := hU 1 0 (by omega) (by omega)
  have h11 := hU 1 1 (by omega) (by omega)
  simp only [ident] at h00 h01 h10 h11
  norm_num at h00 h01 h10 h11
  simp only [applyG1, hkb, hb1, e0, e1, e0', e1', if_true, if_false,
    Bool.false_eq_true, K.conj_add, K.conj_mul]
  linear_combination (K.conj (u k) * v k) * h00
    + (K.conj (u k) * v (k ||| 2 ^ q)) * h01
    + (K.conj (u (k ||| 2 ^ q)) * v k) * h10
    + (K.conj (u (k ||| 2 ^ q)) * v (k ||| 2 ^ q)) * h11

theorem innerProd_applyGate (n : Nat) (g : Gate) (hg : gateWf n g = true)
    (u v : Nat → K) :
    innerProd n (applyGate g u) (applyGate g v) = innerProd n u v := by
  cases g with
  | x q =>
    exact innerProd_applyG1 matX q n (by simpa [gateWf] using hg) matX_conj_unitary u v
  | y q =>
    exact innerProd_applyG1 matY q n (by simpa [gateWf] using hg) matY_conj_unitary u v
  | h q =>
    exact innerProd_applyG1 matH q n (by simpa [gateWf] using hg) matH_conj_unitary u v
  | cx c t =>
    have hc : c < n ∧ t < n ∧ c ≠ t := by
      simp [gateWf] at hg
      omega
    have hpow : (2 : Nat) ^ t < 2 ^ n := Nat.pow_lt_pow_right (by omega) hc.2.1
    unfold innerProd
    simp only [applyGate]
    exact sum_range_invol (2 ^ n) (fun k2 => if k2.testBit c then k2 ^^^ 2 ^ t else k2)
      (fun k hk => by
        by_cases hb : k.testBit c
        · simpa [hb] using Nat.xor_lt_two_pow hk hpow
        · simpa [hb] using hk)
      (fun k hk => condFlip_invol c t k hc.2.2)
      (fun k => K.conj (u k) * v k)
  | cz c t =>
    unfold innerProd
    apply Finset.sum_congr rfl
    intro k hk
    simp only [applyGate]
    by_cases hb : k.testBit c && k.testBit t <;>
      simp [hb, K.conj_neg]
  | ccx c1 c2 t =>
    have hc : c1 < n ∧ c2 < n ∧ t < n ∧ c1 ≠ t ∧ c2 ≠ t := by
      simp [gateWf] at hg
      omega
    have hpow : (2 : Nat) ^ t < 2 ^ n := Nat.pow_lt_pow_right (by omega) hc.2.2.1
    unfold innerProd
    simp only [applyGate]
    exact sum_range_invol (2 ^ n)
      (fun k2 => if k2.testBit c1 && k2.testBit c2 then k2 ^^^ 2 ^ t else k2)
      (fun k hk => by
        by_cases hb : k.testBit c1 && k.testBit c2
        · simpa [hb] using Nat.xor_lt_two_pow hk hpow
        · simpa [hb] using hk)
      (fun k hk => condFlip2_invol c1 c2 t k hc.2.2.2.1 hc.2.2.2.2)
      (fun k => K.conj (u k) * v k)
  | ccz c1 c2 t =>
    unfold innerProd
    apply Finset.sum_congr rfl
    intro k hk
    simp only [applyGate]
    by_cases hb : k.testBit c1 && k.testBit c2 && k.testBit t <;>
      simp [hb, K.conj_neg]
  | barrier => rfl

theorem innerProd_runGates (n : Nat) (gs : List Gate)
    (hwf : gs.all (gateWf n) = true) (u v : Nat → K) :
    innerProd n (runGates gs u) (runGates gs v) = innerProd n u v := by
  induction gs generalizing u v with
  | nil => rfl
  | cons g gs ih =>
    rw [List.all_cons, Bool.and_eq_true] at hwf
    simp only [runGates]
    rw [ih hwf.2, innerProd_applyGate n g hwf.1]

theorem innerProd_from_int_left (n j : Nat) (hj : j < 2 ^ n) (w : Nat → K) :
    innerProd n (from_int j) w = w j := by
  unfold innerProd from_int
  rw [Finset.sum_eq_single j]
  · simp
  · intro b hb hne
    simp [hne]
  · intro hns
    exact absurd (Finset.mem_range.mpr hj) hns

theorem innerProd_from_int_right (n j : Nat) (hj : j < 2 ^ n) (w : Nat → K) :
    innerProd n w (from_int j) = K.conj (w j) := by
  unfold innerProd from_int
  rw [Finset.sum_eq_single j]
  · simp
  · intro b hb hne
    simp [hne]
  · intro hns
    exact absurd (Finset.mem_range.mpr hj) hns

/-! ### Remaining helper lemmas -/

theorem K.zero_ne_one : (0 : K) ≠ 1 := by
  intro h
  have h2 := congrArg K.a h
  norm_num at h2

theorem remapGate_rev_rev (n : Nat) (g : Gate) (hg : gateWf n g = true) :
    remapGate (fun q => n - 1 - q) (remapGate (fun q => n - 1 - q) g) = g := by
  cases g with
  | barrier => rfl
  | x q =>
    simp [gateWf] at hg
    simp [remapGate]
    omega
  | y q =>
    simp [gateWf] at hg
    simp [remapGate]
    omega
  | h q =>
    simp [gateWf] at hg
    simp [remapGate]
    omega
  | cx c t =>
    simp [gateWf] at hg
    simp [remapGate]
    omega
  | cz c t =>
    simp [gateWf] at hg
    simp [remapGate]
    omega
  | ccx c1 c2 t =>
    simp [gateWf] at hg
    simp [remapGate]
    omega
  | ccz c1 c2 t =>
    simp [gateWf] at hg
    simp [remapGate]
    omega

theorem map_remap_rev_rev (n : Nat) (gs : List Gate)
    (h : gs.all (gateWf n) = true) :
    (gs.map (remapGate (fun q => n - 1 - q))).map (remapGate (fun q => n - 1 - q))
      = gs := by
  induction gs with
  | nil => rfl
  | cons g gs ih =>
    rw [List.all_cons, Bool.and_eq_true] at h
    simp [remapGate_rev_rev n g h.1, ih h.2]

theorem nodup_getD_inj (qargs : List Nat) (hnd : qargs.Nodup)
    (s1 s2 : Nat) (h1 : s1 < qargs.length) (h2 : s2 < qargs.length)
    (heq : qargs.getD s1 0 = qargs.getD s2 0) : s1 = s2 := by
  rw [List.getD_eq_getElem?_getD, List.getD_eq_getElem?_getD,
    List.getElem?_eq_getElem h1, List.getElem?_eq_getElem h2] at heq
  simp only [Option.getD_some] at heq
  exact (List.Nodup.getElem_inj_iff hnd).mp heq

theorem remapGate_id_on (f : Nat → Nat) (n : Nat) (hf : ∀ q, q < n → f q = q)
    (g : Gate) (hg : gateWf n g = true) : remapGate f g = g := by
  cases g with
  | barrier => rfl
  | x q =>
    simp [gateWf] at hg
    simp [remapGate, hf q hg]
  | y q =>
    simp [gateWf] at hg
    simp [remapGate, hf q hg]
  | h q =>
    simp [gateWf] at hg
    simp [remapGate, hf q hg]
  | cx c t =>
    simp [gateWf] at hg
    simp [remapGate, hf c (by omega), hf t (by omega)]
  | cz c t =>
    simp [gateWf] at hg
    simp [remapGate, hf c (by omega), hf t (by omega)]
  | ccx c1 c2 t =>
    simp [gateWf] at hg
    simp [remapGate, hf c1 (by omega), hf c2 (by omega), hf t (by omega)]
  | ccz c1 c2 t =>
    simp [gateWf] at hg
    simp [remapGate, hf c1 (by omega), hf c2 (by omega), hf t (by omega)]

theorem map_remap_range_id (n : Nat) (gs : List Gate)
    (h : gs.all (gateWf n) = true) :
    gs.map (remapGate (fun t => (List.range n).getD t 0)) = gs := by
  have hf : ∀ q, q < n → (List.range n).getD q 0 = q := by
    intro q hq
    rw [List.getD_eq_getElem?_getD,
      List.getElem?_eq_getElem (by simpa using hq)]
    simp
  induction gs with
  | nil => rfl
  | cons g gs ih =>
    rw [List.all_cons, Bool.and_eq_true] at h
    rw [List.map_cons, remapGate_id_on _ n hf g h.1, ih h.2]

/-! ### The claims -/

/-- C1: for an N-qubit system, the basis state labeled by integer k with
0 ≤ k < 2^N corresponds to the binary expansion of k read with qubit N-1 as
the most significant bit and qubit 0 as the least significant bit: the label
character at string position N-1-q is qubit q's bit, so label-string order is
the reverse of qubit-index order, and the statevector built from the label of
k is exactly the basis vector `from_int k` under which statevectors are
indexed. -/
theorem basis_label_convention (n k : Nat) (hk : k < 2 ^ n) :
    (∀ q, q < n → ∀ d : Char,
        (labelString n k).getD (n - 1 - q) d = (if k.testBit q then '1' else '0'))
    ∧ (∀ j, j < 2 ^ n → from_label (labelString n k) j = from_int k j) := by
  constructor
  · intro q hq d
    rw [labelString_getD n k (n - 1 - q) (by omega) d]
    have h : n - 1 - (n - 1 - q) = q := by omega
    rw [h]
  · intro j hj
    exact from_label_labelString n k j hk hj

theorem basis_label_convention_witness :
    5 < 2 ^ 3
    ∧ (labelString 3 5).getD 2 '?' = (if (5 : Nat).testBit 0 then '1' else '0')
    ∧ from_label (labelString 3 5) 5 = from_int 5 5 :=
  ⟨by decide, (basis_label_convention 3 5 (by decide)).1 0 (by decide) '?',
    (basis_label_convention 3 5 (by decide)).2 5 (by decide)⟩

/-- C2: the embedding of a single-qubit gate G applied at qubit q of an
n-qubit system is the Kronecker product ordered with qubit n-1 as the leftmost
factor: I_{2^{n-1-q}} ⊗ G ⊗ I_{2^q}.  In particular on qubit 0 of a 2-qubit
system the composite operator is I ⊗ G, and it differs from X ⊗ I for G = X. -/
theorem gate_embedding_kron (G : Mat2) (n q : Nat) (hq : q < n) :
    (∀ i j, i < 2 ^ n → j < 2 ^ n →
        opG1 G q i j = kron ident (kron G ident (2 ^ q)) (2 ^ (q + 1)) i j)
    ∧ (∀ i j, i < 4 → j < 4 → opG1 G 0 i j = kron ident G 2 i j)
    ∧ opG1 matX 0 0 2 ≠ kron matX ident 2 0 2 := by
  refine ⟨fun i j _ _ => opG1_eq_kron G q i j, fun i j _ _ => ?_, ?_⟩
  · rw [opG1_eq_kron G 0 i j]
    simp [kron, ident, Nat.div_one, Nat.mod_one]
  · have h0 : opG1 matX 0 0 2 = 0 := by
      simp +decide [opG1, applyG1, matX, from_int, setBitTo]
    have h1 : kron matX ident 2 0 2 = 1 := by
      simp +decide [kron, matX, ident]
    rw [h0, h1]
    exact K.zero_ne_one

theorem gate_embedding_kron_witness :
    (1 : Nat) < 3
    ∧ opG1 matY 1 2 0 = kron ident (kron matY ident (2 ^ 1)) (2 ^ 2) 2 0 :=
  ⟨by decide, (gate_embedding_kron matY 3 1 (by decide)).1 2 0 (by decide) (by decide)⟩

/-- C3: for the 2-qubit circuit with a single X gate on qubit 0, the image of
the all-zero state has amplitude 1 at basis index 1 (printed label "01", with
the qubit-1 value leftmost) and amplitude 0 elsewhere — in particular not at
basis index 2. -/
theorem two_qubit_x_statevector :
    Statevector two_qubit_x 0 = 0
    ∧ Statevector two_qubit_x 1 = 1
    ∧ Statevector two_qubit_x 2 = 0
    ∧ Statevector two_qubit_x 3 = 0
    ∧ labelString 2 1 = ['0', '1'] := by
  refine ⟨?_, ?_, ?_, ?_, by decide⟩ <;>
    simp +decide [Statevector, two_qubit_x, runGates, applyGate, applyG1,
      setBitTo, matX, from_int]

/-- C4: applying reverse_bits twice to a circuit (whose gates act on valid
qubit indices, as the library enforces) gives back the original circuit, so in
particular the operator matrices agree. -/
theorem reverse_bits_involutive (c : Circuit) (hwf : wfc c = true) :
    reverse_bits (reverse_bits c) = c
    ∧ (∀ i j, Op (reverse_bits (reverse_bits c)) i j = Op c i j) := by
  have hgs : reverse_bits (reverse_bits c) = c := by
    obtain ⟨n, gs⟩ := c
    simp only [reverse_bits]
    congr 1
    exact map_remap_rev_rev n gs (by simpa [wfc] using hwf)
  exact ⟨hgs, fun i j => by rw [hgs]⟩

theorem reverse_bits_involutive_witness :
    wfc two_qubit_x = true
    ∧ reverse_bits (reverse_bits two_qubit_x) = two_qubit_x :=
  ⟨by decide, (reverse_bits_involutive two_qubit_x (by decide)).1⟩

/-- C5: reverse_bits produces a new circuit in which qubit index i is
relabeled to N-1-i with all operations remapped, and leaves the ordering
convention unchanged: the reversed X-on-qubit-0 circuit becomes X on qubit 1
and maps the all-zero state to basis index 2, printed "10". -/
theorem reverse_bits_relabels :
    (∀ c : Circuit, (reverse_bits c).nqubits = c.nqubits
      ∧ (reverse_bits c).gates
          = c.gates.map (remapGate (fun i => c.nqubits - 1 - i)))
    ∧ (reverse_bits two_qubit_x).gates = [Gate.x 1]
    ∧ Statevector (reverse_bits two_qubit_x) 2 = 1
    ∧ Statevector (reverse_bits two_qubit_x) 0 = 0
    ∧ Statevector (reverse_bits two_qubit_x) 1 = 0
    ∧ Statevector (reverse_bits two_qubit_x) 3 = 0
    ∧ labelString 2 2 = ['1', '0'] := by
  refine ⟨fun c => ⟨rfl, rfl⟩, by decide, ?_, ?_, ?_, ?_, by decide⟩ <;>
    simp +decide [Statevector, reverse_bits, two_qubit_x, remapGate, runGates,
      applyGate, applyG1, setBitTo, matX, from_int]

/-- C6: `from_label "011"` on a 3-qubit register is the same coefficient
vector as the basis state at index 0b011 = 3, i.e. `from_int 3`. -/
theorem from_label_011 (j : Nat) (hj : j < 2 ^ 3) :
    from_label ['0', '1', '1'] j = from_int 3 j := by
  have h : labelString 3 3 = ['0', '1', '1'] := by decide
  rw [← h]
  exact from_label_labelString 3 3 j (by decide) hj

theorem from_label_011_witness :
    3 < 2 ^ 3 ∧ from_label ['0', '1', '1'] 3 = from_int 3 3 :=
  ⟨by decide, from_label_011 3 (by decide)⟩

/-- C9: compose and to_gate do not mutate the operand circuit unless mutation
is requested with inplace: with inplace false the operand is returned
unchanged and a new composed circuit is produced; with inplace true the
operand itself becomes the composed circuit; to_gate never changes the
operand. -/
theorem compose_to_gate_no_mutation (c : Circuit) (g : SubGate) (qargs : List Nat) :
    (composeAPI c g qargs false).1 = c
    ∧ (composeAPI c g qargs false).2 = some (composeCirc c g qargs)
    ∧ (composeAPI c g qargs true).1 = composeCirc c g qargs
    ∧ (toGateAPI c).1 = c :=
  ⟨rfl, rfl, rfl, rfl⟩

/-- C7: composing a sub-circuit packaged as a gate into a larger circuit at a
qubit-index mapping `qargs` (distinct qubits, one per sub-circuit qubit) acts
on the mapped sub-register exactly as the sub-circuit's own operator and
leaves the remaining qubits untouched: the composed circuit's action at any
full-space index i equals the sub-circuit's action, applied to the state
restricted along the mapping (unmapped bits of i held fixed), read off at the
extracted sub-register index of i. -/
theorem compose_subcircuit_action (sub : Circuit) (c : Circuit) (qargs : List Nat)
    (hnd : qargs.Nodup) (hm : sub.nqubits = qargs.length)
    (hwf : wfc sub = true) (v : Nat → K) (i : Nat) :
    runGates (composeCirc c (to_gate sub) qargs).gates v i
      = runGates sub.gates
          (fun j => runGates c.gates v
            (inject (fun t => qargs.getD t 0) qargs.length i j))
          (extract (fun t => qargs.getD t 0) qargs.length i) := by
  have hwfl : sub.gates.all (gateWf qargs.length) = true := by
    have h : sub.gates.all (gateWf sub.nqubits) = true := by simpa [wfc] using hwf
    rwa [hm] at h
  simp only [composeCirc, to_gate, runGates_append]
  exact runGates_map_remap (fun t => qargs.getD t 0) qargs.length sub.gates
    (fun s1 s2 h1 h2 heq => nodup_getD_inj qargs hnd s1 s2 h1 h2 heq)
    hwfl (runGates c.gates v) i

theorem compose_subcircuit_action_witness :
    ([1] : List Nat).Nodup
    ∧ (Circuit.mk 1 [Gate.x 0]).nqubits = ([1] : List Nat).length
    ∧ wfc (Circuit.mk 1 [Gate.x 0]) = true
    ∧ runGates (composeCirc (Circuit.mk 2 []) (to_gate (Circuit.mk 1 [Gate.x 0])) [1]).gates
        (from_int 0) 2
      = runGates [Gate.x 0]
          (fun j => runGates ([] : List Gate) (from_int 0)
            (inject (fun t => ([1] : List Nat).getD t 0) 1 2 j))
          (extract (fun t => ([1] : List Nat).getD t 0) 1 2) :=
  ⟨by decide, by decide, by decide,
    compose_subcircuit_action (Circuit.mk 1 [Gate.x 0]) (Circuit.mk 2 []) [1]
      (by decide) (by decide) (by decide) (from_int 0) 2⟩

/-- C8: each probability entry of a statevector equals the squared magnitude
conj(v k) * v k of the corresponding coefficient, and for the statevector
produced by any well-formed circuit the entries over the 2^N basis indices
sum exactly to 1 (the model is exact, so no floating-point tolerance is
needed). -/
theorem probabilities_correct (c : Circuit) (hwf : wfc c = true) :
    (∀ k, probabilities (Statevector c) k
        = K.conj (Statevector c k) * Statevector c k)
    ∧ ∑ k ∈ Finset.range (2 ^ c.nqubits), probabilities (Statevector c) k = 1 := by
  constructor
  · intro k
    rfl
  · have h := innerProd_runGates c.nqubits c.gates (by simpa [wfc] using hwf)
      (from_int 0) (from_int 0)
    have h0 : innerProd c.nqubits (from_int 0) (from_int 0) = 1 := by
      rw [innerProd_from_int_left c.nqubits 0 (Nat.two_pow_pos _) (from_int 0)]
      simp [from_int]
    have hs : ∑ k ∈ Finset.range (2 ^ c.nqubits), probabilities (Statevector c) k
        = innerProd c.nqubits (Statevector c) (Statevector c) := rfl
    rw [hs, Statevector, h, h0]

theorem probabilities_correct_witness :
    wfc (Circuit.mk 2 [Gate.h 0, Gate.cx 0 1]) = true
    ∧ ∑ k ∈ Finset.range (2 ^ (Circuit.mk 2 [Gate.h 0, Gate.cx 0 1]).nqubits),
        probabilities (Statevector (Circuit.mk 2 [Gate.h 0, Gate.cx 0 1])) k = 1 :=
  ⟨by decide, (probabilities_correct (Circuit.mk 2 [Gate.h 0, Gate.cx 0 1]) (by decide)).2⟩

/-- C10: for a circuit of invertible gates (no barriers), inverse() gives a
circuit whose operator is the conjugate transpose of the original operator,
and composing the circuit with its inverse yields the identity operator. -/
theorem inverse_adjoint (c : Circuit) (hwf : wfc c = true)
    (hnb : noBarrier c = true) :
    (∀ i j, i < 2 ^ c.nqubits → j < 2 ^ c.nqubits →
        Op (Circuit.inverse c) i j = K.conj (Op c j i))
    ∧ (∀ i j, i < 2 ^ c.nqubits → j < 2 ^ c.nqubits →
        Op (composeCirc c (to_gate (Circuit.inverse c)) (List.range c.nqubits)) i j
          = ident i j) := by
  have hwfa : c.gates.all (gateWf c.nqubits) = true := by simpa [wfc] using hwf
  have hwfr : c.gates.reverse.all (gateWf c.nqubits) = true := by
    simpa [List.all_reverse] using hwfa
  have hinvg : (Circuit.inverse c).gates = c.gates.reverse := by
    simp only [Circuit.inverse, map_gateInv]
  constructor
  · intro i j hi hj
    have hOp : Op (Circuit.inverse c) i j
        = runGates c.gates.reverse (from_int j) i := by
      simp only [Op, hinvg]
    rw [hOp,
      ← innerProd_from_int_left c.nqubits i hi
        (runGates c.gates.reverse (from_int j)),
      ← innerProd_runGates c.nqubits c.gates hwfa (from_int i)
        (runGates c.gates.reverse (from_int j))]
    have hcancel : runGates c.gates (runGates c.gates.reverse (from_int j))
        = from_int j := by
      funext k2
      have h := runGates_cancel c.gates.reverse c.nqubits hwfr (from_int j) k2
      rwa [List.reverse_reverse] at h
    rw [hcancel, innerProd_from_int_right c.nqubits j hj]
    rfl
  · intro i j hi hj
    have hgates : (composeCirc c (to_gate (Circuit.inverse c))
        (List.range c.nqubits)).gates = c.gates ++ c.gates.reverse := by
      simp only [composeCirc, to_gate, hinvg]
      rw [map_remap_range_id c.nqubits c.gates.reverse hwfr]
    simp only [Op, hgates, runGates_append]
    rw [runGates_cancel c.gates c.nqubits hwfa (from_int j) i]
    rfl

theorem inverse_adjoint_witness :
    wfc (Circuit.mk 2 [Gate.h 0, Gate.cx 0 1]) = true
    ∧ noBarrier (Circuit.mk 2 [Gate.h 0, Gate.cx 0 1]) = true
    ∧ Op (Circuit.inverse (Circuit.mk 2 [Gate.h 0, Gate.cx 0 1])) 0 1
        = K.conj (Op (Circuit.mk 2 [Gate.h 0, Gate.cx 0 1]) 1 0)
    ∧ Op (composeCirc (Circuit.mk 2 [Gate.h 0, Gate.cx 0 1])
          (to_gate (Circuit.inverse (Circuit.mk 2 [Gate.h 0, Gate.cx 0 1])))
          (List.range 2)) 0 1 = ident 0 1 :=
  ⟨by decide, by decide,
    (inverse_adjoint (Circuit.mk 2 [Gate.h 0, Gate.cx 0 1]) (by decide) (by decide)).1
      0 1 (by decide) (by decide),
    (inverse_adjoint (Circuit.mk 2 [Gate.h 0, Gate.cx 0 1]) (by decide) (by decide)).2
      0 1 (by decide) (by decide)⟩
